import Mathlib

/-!
Verification of the cursor-rule discovery engine (codemcp rules module).

The Python module src/codemcp/rules.py is shallowly embedded here.  Strings
are modelled as Lean String values and manipulated through executable helper
functions over List Char, mirroring the corresponding Python primitives
(str.split, str.strip, str.startswith, the in operator, os.path.dirname,
os.path.normpath, os.path.join, os.path.relpath, pathlib.PurePosixPath).
Filesystem state (os.path.isdir, os.walk, reading a file) and the process
working directory (used by os.path.abspath) are passed in explicitly as an
oracle structure FS and a cwd argument.  Code that can raise a Python
exception is modelled with Option / Except: a none / error value marks the
point where the Python code raises.
-/

namespace Codemcp

/-! ## Character and list-level string primitives -/

/-- Whitespace predicate used by the Python str.strip default (ASCII part). -/
def pyIsSpace (c : Char) : Bool :=
  c == ' ' || c == '\t' || c == '\n' || c == '\r' || c == '\x0b' || c == '\x0c'

/-- Strip pyIsSpace characters from both ends, as Python str.strip(). -/
def pyStripL (l : List Char) : List Char :=
  ((l.dropWhile pyIsSpace).reverse.dropWhile pyIsSpace).reverse

/-- String-level strip. -/
def pyStrip (s : String) : String := ⟨pyStripL s.data⟩

/-- ASCII lower-casing of one character, as Python str.lower on ASCII input. -/
def lowerChar (c : Char) : Char :=
  if 'A' ≤ c ∧ c ≤ 'Z' then Char.ofNat (c.toNat + 32) else c

/-- String-level ASCII lower-casing. -/
def pyLower (s : String) : String := ⟨s.data.map lowerChar⟩

/-- Boolean list-prefix test (own definition, proved about below). -/
def isPre : List Char → List Char → Bool
  | [], _ => true
  | _ :: _, [] => false
  | a :: as, b :: bs => a == b && isPre as bs

/-- Boolean list-suffix test. -/
def isSuf (a b : List Char) : Bool := isPre a.reverse b.reverse

/-- Boolean contiguous-sublist test. -/
def isInf (n : List Char) : List Char → Bool
  | [] => isPre n []
  | c :: cs => isPre n (c :: cs) || isInf n cs

/-- Python s.startswith(pre). -/
def strStartsWith (s pre : String) : Bool := isPre pre.data s.data

/-- Python s.endswith(suf). -/
def strEndsWith (s suf : String) : Bool := isSuf suf.data s.data

/-- Python membership test: needle in haystack (empty needle is always in). -/
def pyIn (needle haystack : String) : Bool := isInf needle.data haystack.data

/-- Split a character list at every occurrence of a separator character,
as Python str.split(sep) for a one-character separator. -/
def splitOnChar (sep : Char) : List Char → List (List Char)
  | [] => [[]]
  | c :: cs =>
    if c == sep then [] :: splitOnChar sep cs
    else
      match splitOnChar sep cs with
      | [] => [[c]]
      | h :: t => (c :: h) :: t

/-- Split at the first occurrence of a (multi-character) separator; none when
the separator does not occur.  Models Python s.split(sep, 1) when it finds
the separator, and the guard "sep in s" when it does not. -/
def splitFirstL (sep : List Char) : List Char → Option (List Char × List Char)
  | [] => if sep == [] then some ([], []) else none
  | c :: cs =>
    if isPre sep (c :: cs) then some ([], (c :: cs).drop sep.length)
    else
      match splitFirstL sep cs with
      | some (pre, post) => some (c :: pre, post)
      | none => none

/-- Python a, b = s.split(sep): succeeds exactly when the separator occurs
exactly once (non-overlapping, left to right); otherwise the unpacking
raises ValueError, modelled as none. -/
def splitExact2 (sep s : String) : Option (String × String) :=
  match splitFirstL sep.data s.data with
  | some (pre, post) =>
    match splitFirstL sep.data post with
    | some _ => none
    | none => some (⟨pre⟩, ⟨post⟩)
  | none => none

/-- Join character-list components with a slash, as sep.join in posixpath. -/
def joinSlash : List (List Char) → List Char
  | [] => []
  | [x] => x
  | x :: y :: t => x ++ '/' :: joinSlash (y :: t)

/-! ## posixpath / pathlib primitives -/

/-- Model of posixpath.dirname: the part before the last slash (obtained
by dropping the trailing run of non-slash characters), with trailing
slashes then stripped unless the result is empty or consists only of
slashes. -/
def dirname (p : String) : String :=
  if (p.data.reverse.dropWhile (fun c => !(c == '/'))).reverse == []
      || ((p.data.reverse.dropWhile (fun c => !(c == '/'))).reverse.all (fun c => c == '/'))
  then ⟨(p.data.reverse.dropWhile (fun c => !(c == '/'))).reverse⟩
  else ⟨((p.data.reverse.dropWhile (fun c => !(c == '/'))).dropWhile (fun c => c == '/')).reverse⟩

/-- Model of posixpath.join for two components. -/
def pyJoin (a b : String) : String :=
  if strStartsWith b "/" then b
  else if a == "" || strEndsWith a "/" then ⟨a.data ++ b.data⟩
  else ⟨a.data ++ '/' :: b.data⟩

/-- Model of posixpath.normpath. -/
def normpath (p : String) : String :=
  if p == "" then "." else
  let initialSlashes : Nat :=
    if strStartsWith p "/" then
      (if strStartsWith p "//" && !(strStartsWith p "///") then 2 else 1)
    else 0
  let comps := splitOnChar '/' p.data
  let newComps := (comps.foldl (fun acc comp =>
    if comp == [] || comp == ['.'] then acc
    else if !(comp == ['.', '.']) || (initialSlashes == 0 && acc == [])
        || (!(acc == []) && acc.headD [] == ['.', '.']) then comp :: acc
    else
      match acc with
      | [] => []
      | _ :: t => t) []).reverse
  let out := List.replicate initialSlashes '/' ++ joinSlash newComps
  if out == [] then "." else ⟨out⟩

/-- Model of os.path.abspath, with the process working directory passed
explicitly: join with cwd when the path is relative, then normalize. -/
def abspath (cwd p : String) : String := normpath (pyJoin cwd p)

/-- Components of pathlib.PurePosixPath: split on slashes, dropping empty
and single-dot components. -/
def pathParts (s : String) : List (List Char) :=
  (splitOnChar '/' s.data).filter (fun c => !(c == []) && !(c == ['.']))

/-- Model of pathlib.PurePosixPath(s).name: the final component, or the
empty string when there is none. -/
def pathName (s : String) : String := ⟨((pathParts s).getLast?).getD []⟩

/-- Model of str(pathlib.PurePosixPath(s)): the normalized textual form
(root slashes kept, empty and dot components dropped, no trailing slash). -/
def pathStr (s : String) : String :=
  let root : List Char :=
    if strStartsWith s "//" && !(strStartsWith s "///") then ['/', '/']
    else if strStartsWith s "/" then ['/']
    else []
  let body := joinSlash (pathParts s)
  if root == [] && body == [] then "." else ⟨root ++ body⟩

/-- Length of the common leading run of two component lists, as
os.path.commonprefix on lists. -/
def commonLen : List (List Char) → List (List Char) → Nat
  | a :: as, b :: bs => if a == b then commonLen as bs + 1 else 0
  | _, _ => 0

/-- Model of posixpath.relpath(path, start) with an explicit cwd; an empty
path raises ValueError, modelled as error. -/
def relpath (cwd path start : String) : Except Unit String :=
  if path == "" then .error () else
  let sL := (splitOnChar '/' (abspath cwd start).data).filter (fun c => !(c == []))
  let pL := (splitOnChar '/' (abspath cwd path).data).filter (fun c => !(c == []))
  let i := commonLen sL pL
  let rel := List.replicate (sL.length - i) ['.', '.'] ++ pL.drop i
  if rel == [] then .ok "." else .ok ⟨joinSlash rel⟩

/-! ## Model of the stdlib fnmatch fallback

The final branch of match_file_with_glob calls fnmatch.fnmatch, a Python
stdlib shell-wildcard matcher.  It is modelled here as a total function
(stdlib fnmatch never raises): a star matches any run of characters, a
question mark one character, and a bracket expression a character class
with optional leading negation, ranges, and the translate conventions for
a literal closing bracket (first position) and an unterminated class
(literal open bracket).  No claim depends on the fine structure of this
fallback; it exists so the glob matcher is modelled branch for branch. -/

/-- Scan a class body up to the closing bracket; none when unterminated. -/
def scanBody : List Char → Option (List Char × List Char)
  | [] => none
  | c :: t =>
    if c == ']' then some ([], t)
    else (scanBody t).map (fun pr => (c :: pr.1, pr.2))

/-- Parse a bracket expression after the opening bracket: negation flag,
class body, and the remaining pattern; none when unterminated. -/
def splitClass (l : List Char) : Option (Bool × List Char × List Char) :=
  match l with
  | '!' :: ']' :: t => (scanBody t).map (fun pr => (true, ']' :: pr.1, pr.2))
  | '!' :: t => (scanBody t).map (fun pr => (true, pr.1, pr.2))
  | ']' :: t => (scanBody t).map (fun pr => (false, ']' :: pr.1, pr.2))
  | t => (scanBody t).map (fun pr => (false, pr.1, pr.2))

/-- Membership of a character in a class body, with x-y ranges. -/
def charInClass (c : Char) : List Char → Bool
  | [] => false
  | a :: '-' :: b :: rest =>
    (Nat.ble a.toNat c.toNat && Nat.ble c.toNat b.toNat) || charInClass c rest
  | a :: rest => c == a || charInClass c rest

/-- Tokens of a shell wildcard pattern. -/
inductive GTok where
  | star : GTok
  | qmark : GTok
  | lit : Char → GTok
  | cls : Bool → List Char → GTok
deriving DecidableEq

/-- Fuelled compilation of a wildcard pattern into tokens; every step
consumes at least one pattern character, so fuel l.length + 1 suffices. -/
def tokenizeF : Nat → List Char → List GTok
  | 0, _ => []
  | n + 1, l =>
    match l with
    | [] => []
    | '*' :: t => .star :: tokenizeF n t
    | '?' :: t => .qmark :: tokenizeF n t
    | '[' :: t =>
      match splitClass t with
      | some (neg, b, r) => .cls neg b :: tokenizeF n r
      | none => .lit '[' :: tokenizeF n t
    | c :: t => .lit c :: tokenizeF n t

/-- Compile a wildcard pattern into tokens. -/
def tokenize (l : List Char) : List GTok := tokenizeF (l.length + 1) l

/-- Fuelled full-string wildcard match; every recursive call lowers the
sum of the two list lengths, so fuel p.length + s.length + 1 suffices. -/
def gmatchF : Nat → List GTok → List Char → Bool
  | 0, _, _ => false
  | n + 1, p, s =>
    match p, s with
    | [], s => s == []
    | .star :: p, s =>
      gmatchF n p s || (match s with | [] => false | _ :: s2 => gmatchF n (.star :: p) s2)
    | .qmark :: p, s => match s with | [] => false | _ :: s2 => gmatchF n p s2
    | .lit a :: p, s => match s with | [] => false | c :: s2 => a == c && gmatchF n p s2
    | .cls neg b :: p, s =>
      match s with
      | [] => false
      | c :: s2 => (charInClass c b != neg) && gmatchF n p s2

/-- Full-string wildcard match of a token list against a character list. -/
def gmatch (p : List GTok) (s : List Char) : Bool := gmatchF (p.length + s.length + 1) p s

/-- Model of fnmatch.fnmatch(name, pattern) on a POSIX system (where the
case normalization is the identity). -/
def fnmatchMatches (name pattern : String) : Bool := gmatch (tokenize pattern.data) name.data

/-! ## The glob matcher: match_file_with_glob (rules.py lines 86-123)

The Python function can raise: when the pattern contains both a slash and
a double star, glob_pattern.split("/**/") is unpacked into exactly two
variables, and a ValueError escapes if the split does not produce exactly
two parts.  The model returns none exactly at that raise point and
some b where the Python function returns the boolean b. -/

/-- Model of match_file_with_glob (the file name is pathlib name of the
path, written out in each branch).  none models the ValueError raised by
the two-variable unpacking of glob_pattern.split("/**/"). -/
def match_file_with_glob (file_path glob_pattern : String) : Option Bool :=
  if strStartsWith glob_pattern "*." then
    some (strEndsWith (pathName file_path) ⟨glob_pattern.data.drop 1⟩)
  else if glob_pattern == "**/*.js" || glob_pattern == "**/*.jsx" then
    some (strEndsWith (pathName file_path)
      ⟨'.' :: (((splitOnChar '.' glob_pattern.data).getLast?).getD [])⟩)
  else if pyIn "/" glob_pattern && pyIn "**" glob_pattern then
    match splitExact2 "/**/" glob_pattern with
    | none => none
    | some (dir_part, file_part) =>
      if strStartsWith file_part "*" then
        if !(strEndsWith (pathName file_path) ⟨file_part.data.drop 1⟩) then some false
        else some (pyIn dir_part (pathStr file_path))
      else some (pyIn dir_part (pathStr file_path))
  else some (fnmatchMatches (pathName file_path) glob_pattern)

/-! ## The rule loader: load_rule_from_file (rules.py lines 30-83) -/

/-- A cursor rule loaded from an MDC file (the Rule dataclass). -/
structure Rule where
  description : Option String
  globs : List String
  always_apply : Bool
  payload : String
  file_path : String
deriving DecidableEq

/-- Model of the anchored regex match ---\n(.*?)\n---\n(.*) with DOTALL:
the text must start with a delimiter line, the first group is everything up
to the first subsequent delimiter line (non-greedy), the second group is
the rest.  none models a failed match. -/
def splitFrontmatter (content : String) : Option (String × String) :=
  if strStartsWith content "---\n" then
    match splitFirstL "\n---\n".data (content.data.drop 4) with
    | some (fm, rest) => some (⟨fm⟩, ⟨rest⟩)
    | none => none
  else none

/-- Parse header lines as key: value pairs split at the first colon, both
sides stripped; later lines overwrite earlier ones (Python dict). -/
def parseFrontmatter (t : String) : List (String × String) :=
  (splitOnChar '\n' (pyStrip t).data).foldl (fun acc lineL =>
    match splitFirstL [':'] lineL with
    | some (k, v) => acc ++ [(⟨pyStripL k⟩, (⟨pyStripL v⟩ : String))]
    | none => acc) []

/-- Dictionary lookup: the value of the last binding of the key. -/
def fmGet (fm : List (String × String)) (k : String) : Option String :=
  (fm.reverse.find? (fun e => e.1 == k)).map (fun e => e.2)

/-- Truthiness of a Python string value. -/
def strTruthy (s : String) : Bool := !(s == "")

/-- Truthiness of an optional Python string (None and the empty string are
falsy). -/
def optTruthy : Option String → Bool
  | none => false
  | some s => strTruthy s

/-- Model of load_rule_from_file.  The filesystem read is passed in as
readFile: none models an OSError or decode error while opening or reading
(the except branch returns None after logging).  A document without the
frontmatter structure also yields none. -/
def load_rule_from_file (readFile : String → Option String) (file_path : String) :
    Option Rule :=
  match readFile file_path with
  | none => none
  | some content =>
    match splitFrontmatter content with
    | none => none
    | some (fmText, rest) =>
      let payload := pyStrip rest
      let fm := parseFrontmatter fmText
      let description := fmGet fm "description"
      let globs : List String :=
        match fmGet fm "globs" with
        | some gv =>
          if strTruthy gv then (splitOnChar ',' gv.data).map (fun g => (⟨pyStripL g⟩ : String))
          else []
        | none => []
      let always_apply := pyLower ((fmGet fm "alwaysApply").getD "false") == "true"
      some ⟨description, globs, always_apply, payload, file_path⟩

/-! ## The discovery engine: find_applicable_rules (rules.py lines 126-195) -/

/-- Filesystem oracle: isdir models os.path.isdir; walk models os.walk
restricted to the (dirpath, filenames) parts it yields, in walk order;
readFile models reading a file as UTF-8 text. -/
structure FS where
  isdir : String → Bool
  walk : String → List (String × List String)
  readFile : String → Option String

/-- The rule loader applied through the oracle. -/
def fsLoad (fs : FS) (p : String) : Option Rule := load_rule_from_file fs.readFile p

/-- MDC files discovered below dir/.cursor/rules, in walk order
(rules.py lines 157-164). -/
def mdcFilesIn (fs : FS) (dir : String) : List String :=
  let rules_dir := pyJoin (pyJoin dir ".cursor") "rules"
  if fs.isdir rules_dir then
    (fs.walk rules_dir).foldr (fun pr acc =>
      ((pr.2.filter (fun fn => strEndsWith fn ".mdc")).map (fun fn => pyJoin pr.1 fn)) ++ acc) []
  else []

/-- Accumulated state of one discovery call: the two result lists and the
processed_rule_files set, kept as the list of paths in insertion order
(which is also the exact sequence of load_rule_from_file invocations). -/
structure DiscoverySt where
  applicable : List Rule
  suggested : List (String × String)
  processed : List String
deriving DecidableEq

/-- The for-loop over rule.globs with its first-match break (rules.py
lines 181-184); error marks a ValueError escaping from
match_file_with_glob. -/
def globLoop (fp : String) (r : Rule) (st : DiscoverySt) :
    List String → Except Unit DiscoverySt
  | [] => .ok st
  | g :: gs =>
    match match_file_with_glob fp g with
    | none => .error ()
    | some true => .ok { st with applicable := st.applicable ++ [r] }
    | some false => globLoop fp r st gs

/-- Processing of one candidate rule file path (rules.py lines 166-187):
skip already-processed paths, record the path, load, then classify through
the if / elif chain. -/
def processFile (fs : FS) (file_path : Option String) (st : DiscoverySt)
    (rfp : String) : Except Unit DiscoverySt :=
  if rfp ∈ st.processed then .ok st
  else
    let st1 : DiscoverySt := { st with processed := st.processed ++ [rfp] }
    match fsLoad fs rfp with
    | none => .ok st1
    | some rule =>
      if rule.always_apply then
        .ok { st1 with applicable := st1.applicable ++ [rule] }
      else if optTruthy file_path && !rule.globs.isEmpty then
        globLoop (file_path.getD "") rule st1 rule.globs
      else if optTruthy rule.description then
        .ok { st1 with suggested := st1.suggested ++ [(rule.description.getD "", rfp)] }
      else .ok st1

/-- Fuelled form of the upward directory walk (rules.py lines 156 and
189-193): visit while the current directory string starts with repo_root,
stop when dirname reaches a fixed point. -/
def walkDirsF : Nat → String → String → List String
  | 0, _, _ => []
  | n + 1, root, cur =>
    if strStartsWith cur root then
      if dirname cur = cur then [cur]
      else cur :: walkDirsF n root (dirname cur)
    else []

/-- The upward directory walk; the fuel cur.length + 1 always suffices
because dirname strictly shortens any string it changes (walkDirs_eq below
recovers the loop equation). -/
def walkDirs (root cur : String) : List String := walkDirsF (cur.length + 1) root cur

/-- Starting directory of the walk (rules.py line 152): the directory of
the absolutized target when one is supplied and truthy, else the
absolutized repo root. -/
def startDir (cwd rootAbs : String) (file_path : Option String) : String :=
  if optTruthy file_path then dirname (abspath cwd (file_path.getD "")) else rootAbs

/-- The sequence of directories the discovery call visits. -/
def discoveryWalk (cwd repo_root : String) (file_path : Option String) : List String :=
  walkDirs (abspath cwd repo_root) (startDir cwd (abspath cwd repo_root) file_path)

/-- Model of find_applicable_rules.  cwd is the process working directory
used by os.path.abspath; error marks a ValueError escaping from glob
matching. -/
def find_applicable_rules (fs : FS) (cwd repo_root : String)
    (file_path : Option String) : Except Unit DiscoverySt :=
  ((discoveryWalk cwd repo_root file_path).map (mdcFilesIn fs)).flatten.foldlM
    (processFile fs file_path) ⟨[], [], []⟩

/-! ## The renderer: get_applicable_rules_content (rules.py lines 198-236) -/

/-- Model of get_applicable_rules_content: run discovery, then format; the
enclosing try/except converts every internal failure into the empty
string. -/
def get_applicable_rules_content (fs : FS) (cwd repo_root : String)
    (file_path : Option String) : String :=
  let comp : Except Unit String := do
    let st ← find_applicable_rules fs cwd repo_root file_path
    if !st.applicable.isEmpty || !st.suggested.isEmpty then
      let r1 ← st.applicable.foldlM (fun acc r => do
        let rp ← relpath cwd r.file_path repo_root
        pure (acc ++ "\n\n// Rule from " ++ rp ++ ":\n" ++ r.payload))
        "\n\n// .cursor/rules results:"
      let r2 ← st.suggested.foldlM (fun acc e => do
        let rp ← relpath cwd e.2 repo_root
        pure (acc ++ "\n\n// If " ++ e.1 ++ " applies, load " ++ rp)) r1
      pure r2
    else pure ""
  match comp with
  | .ok s => s
  | .error _ => ""

/-! ## Derived characterizations and spec-side predicates -/

/-- Value form of the for-loop over rule.globs: some true when a pattern
matches first, some false when none matches, none when a match raises. -/
def anyMatch (fp : String) : List String → Option Bool
  | [] => some false
  | g :: gs =>
    match match_file_with_glob fp g with
    | none => none
    | some true => some true
    | some false => anyMatch fp gs

/-- The contribution of one processed rule file to the two result lists,
read off the if / elif chain of find_applicable_rules (proved equivalent
to processFile below). -/
def ruleOutcome (file_path : Option String) (lr : Option Rule) (rfp : String) :
    Except Unit (List Rule × List (String × String)) :=
  match lr with
  | none => .ok ([], [])
  | some rule =>
    if rule.always_apply then .ok ([rule], [])
    else if optTruthy file_path && !rule.globs.isEmpty then
      match anyMatch (file_path.getD "") rule.globs with
      | none => .error ()
      | some true => .ok ([rule], [])
      | some false => .ok ([], [])
    else if optTruthy rule.description then .ok ([], [(rule.description.getD "", rfp)])
    else .ok ([], [])

/-- Entries of the applicable list carrying a given source path. -/
def applFor (st : DiscoverySt) (p : String) : List Rule :=
  st.applicable.filter (fun r => r.file_path == p)

/-- Entries of the suggested list carrying a given source path. -/
def suggFor (st : DiscoverySt) (p : String) : List (String × String) :=
  st.suggested.filter (fun e => e.2 == p)

/-- Invariant of the discovery fold: processed paths are distinct, and the
entries of each result list with a given source path are exactly the
classification outcome of that path (none for unprocessed paths). -/
def Inv (fs : FS) (file_path : Option String) (st : DiscoverySt) : Prop :=
  st.processed.Nodup ∧
  ∀ p : String,
    (p ∉ st.processed → applFor st p = [] ∧ suggFor st p = []) ∧
    (p ∈ st.processed → ∃ pr, ruleOutcome file_path (fsLoad fs p) p = .ok pr ∧
      applFor st p = pr.1 ∧ suggFor st p = pr.2)

/-- Modelled from the spec: d is a descendant of (or equal to) root in the
path sense, for slash-separated path strings. -/
def isDescendantOrSelf (d root : String) : Bool :=
  d == root ||
    isPre (if strEndsWith root "/" then root.data else root.data ++ ['/']) d.data

/-- Modelled from the spec: s lies strictly inside root, that is, root
followed by a slash is a prefix of s. -/
def strictlyInside (s root : String) : Bool := isPre (root.data ++ ['/']) s.data

/-! ## Concrete filesystem instances used by counterexamples and witnesses -/

/-- Repository /r with one rule document (description d, globs *.js, not
always-applied) at the conventional location. -/
def fs1 : FS :=
  ⟨fun d => d == "/r/.cursor/rules",
   fun d => if d == "/r/.cursor/rules" then [("/r/.cursor/rules", ["x.mdc"])] else [],
   fun p => if p == "/r/.cursor/rules/x.mdc"
            then some "---\ndescription: d\nglobs: *.js\nalwaysApply: false\n---\nBODY"
            else none⟩

/-- The rule loaded from fs1. -/
def ruleA : Rule := ⟨some "d", ["*.js"], false, "BODY", "/r/.cursor/rules/x.mdc"⟩

/-- Repository /r with one always-applied rule document. -/
def fs2 : FS :=
  ⟨fun d => d == "/r/.cursor/rules",
   fun d => if d == "/r/.cursor/rules" then [("/r/.cursor/rules", ["y.mdc"])] else [],
   fun p => if p == "/r/.cursor/rules/y.mdc"
            then some "---\nalwaysApply: true\n---\nGO"
            else none⟩

/-- The rule loaded from fs2. -/
def ruleB : Rule := ⟨none, [], true, "GO", "/r/.cursor/rules/y.mdc"⟩

/-- Repository /r with the round-trip rule document of claim C9. -/
def fs9 : FS :=
  ⟨fun d => d == "/r/.cursor/rules",
   fun d => if d == "/r/.cursor/rules" then [("/r/.cursor/rules", ["x.mdc"])] else [],
   fun p => if p == "/r/.cursor/rules/x.mdc"
            then some "---\ndescription: foo\nglobs: *.py, *.md\nalwaysApply: false\n---\nHello"
            else none⟩

/-- A filesystem with no rule folders at all. -/
def fsEmpty : FS := ⟨fun _ => false, fun _ => [], fun _ => none⟩

/-! ## Lemmas about the string primitives -/

lemma isPre_iff : ∀ a b : List Char, isPre a b = true ↔ ∃ t, b = a ++ t := by
  intro a
  induction a with
  | nil =>
    intro b
    simp [isPre]
  | cons x xs ih =>
    intro b
    cases b with
    | nil =>
      simp [isPre]
    | cons y ys =>
      simp only [isPre, Bool.and_eq_true, beq_iff_eq, ih, List.cons_append, List.cons.injEq]
      constructor
      · rintro ⟨hxy, t, ht⟩
        exact ⟨t, hxy.symm, ht⟩
      · rintro ⟨t, hxy, ht⟩
        exact ⟨hxy.symm, t, ht⟩

lemma isPre_trans {a b c : List Char} (h1 : isPre a b = true) (h2 : isPre b c = true) :
    isPre a c = true := by
  rw [isPre_iff] at *
  obtain ⟨t, ht⟩ := h1
  obtain ⟨u, hu⟩ := h2
  exact ⟨t ++ u, by rw [hu, ht, List.append_assoc]⟩

lemma isPre_length {a b : List Char} (h : isPre a b = true) : a.length ≤ b.length := by
  rw [isPre_iff] at h
  obtain ⟨t, ht⟩ := h
  subst ht
  simp

lemma isPre_right_of_le {a b c : List Char} (h1 : isPre a c = true) (h2 : isPre b c = true)
    (hle : a.length ≤ b.length) : isPre a b = true := by
  rw [isPre_iff] at h1 h2 ⊢
  obtain ⟨t, ht⟩ := h1
  obtain ⟨u, hu⟩ := h2
  have hta : c.take a.length = a := by rw [ht, List.take_left]
  have htb : c.take b.length = b := by rw [hu, List.take_left]
  have hab : b.take a.length = a := by
    rw [← htb, List.take_take, Nat.min_eq_left hle, hta]
  refine ⟨b.drop a.length, ?_⟩
  conv_lhs => rw [← List.take_append_drop a.length b]
  rw [hab]

lemma isPre_eq_of_length {a b : List Char} (h : isPre a b = true)
    (hl : a.length = b.length) : a = b := by
  rw [isPre_iff] at h
  obtain ⟨t, ht⟩ := h
  subst ht
  simp at hl
  simp [hl]

lemma dropWhile_len_le (q : Char → Bool) (l : List Char) :
    (l.dropWhile q).length ≤ l.length := by
  induction l with
  | nil => simp
  | cons c t ih =>
    rw [List.dropWhile_cons]
    split
    · simp only [List.length_cons]
      omega
    · simp

lemma dropWhile_self_or_lt (q : Char → Bool) (l : List Char) :
    l.dropWhile q = l ∨ (l.dropWhile q).length < l.length := by
  cases l with
  | nil => left; simp
  | cons c t =>
    rw [List.dropWhile_cons]
    split
    · right
      have := dropWhile_len_le q t
      simp only [List.length_cons]
      omega
    · left; rfl

lemma isPre_rev_of_parts {m u l : List Char} (h : l = u ++ m) :
    isPre m.reverse l.reverse = true := by
  subst h
  rw [List.reverse_append, isPre_iff]
  exact ⟨u.reverse, rfl⟩

lemma dropWhile_parts (q : Char → Bool) (l : List Char) : ∃ u, l = u ++ l.dropWhile q :=
  ⟨l.takeWhile q, (List.takeWhile_append_dropWhile q l).symm⟩

/-! ## Lemmas about dirname and the walk -/

lemma dirname_pre (p : String) : isPre (dirname p).data p.data = true := by
  obtain ⟨u, hu⟩ := dropWhile_parts (fun c => !(c == '/')) p.data.reverse
  obtain ⟨v, hv⟩ :=
    dropWhile_parts (fun c => c == '/') (p.data.reverse.dropWhile (fun c => !(c == '/')))
  unfold dirname
  split
  · have := isPre_rev_of_parts hu
    rwa [List.reverse_reverse] at this
  · have hparts : p.data.reverse =
        (u ++ v) ++ ((p.data.reverse.dropWhile (fun c => !(c == '/'))).dropWhile
          (fun c => c == '/')) := by
      rw [List.append_assoc, ← hv]
      exact hu
    have := isPre_rev_of_parts hparts
    rwa [List.reverse_reverse] at this

lemma dirname_self_or_lt (p : String) : dirname p = p ∨ (dirname p).length < p.length := by
  have hpre := dirname_pre p
  rcases Nat.lt_or_ge (dirname p).data.length p.data.length with h | h
  · right
    exact h
  · left
    have hlen := isPre_length hpre
    have heq : (dirname p).data = p.data := isPre_eq_of_length hpre (by omega)
    have : dirname p = (⟨p.data⟩ : String) := by rw [← heq]
    exact this

lemma walkDirsF_mem_starts : ∀ (n : Nat) (root cur d : String),
    d ∈ walkDirsF n root cur → strStartsWith d root = true := by
  intro n
  induction n with
  | zero => intro root cur d h; simp [walkDirsF] at h
  | succ n ih =>
    intro root cur d h
    unfold walkDirsF at h
    split at h
    · split at h
      · simp at h
        subst h
        assumption
      · simp at h
        rcases h with h | h
        · subst h; assumption
        · exact ih root (dirname cur) d h
    · simp at h

lemma walkDirsF_mem_pre : ∀ (n : Nat) (root cur d : String),
    d ∈ walkDirsF n root cur → isPre d.data cur.data = true := by
  intro n
  induction n with
  | zero => intro root cur d h; simp [walkDirsF] at h
  | succ n ih =>
    intro root cur d h
    unfold walkDirsF at h
    split at h
    · split at h
      · simp at h
        subst h
        rw [isPre_iff]
        exact ⟨[], by simp⟩
      · simp at h
        rcases h with h | h
        · subst h
          rw [isPre_iff]
          exact ⟨[], by simp⟩
        · exact isPre_trans (ih root (dirname cur) d h) (dirname_pre cur)
    · simp at h

lemma walkDirsF_sufficient : ∀ (n : Nat) (root cur : String), cur.length < n →
    walkDirsF n root cur = walkDirsF (cur.length + 1) root cur := by
  intro n
  induction n using Nat.strong_induction_on with
  | _ n ih =>
    intro root cur hn
    match n, hn with
    | n + 1, hn =>
      show walkDirsF (n + 1) root cur = walkDirsF (cur.length + 1) root cur
      rw [walkDirsF, walkDirsF]
      rcases dirname_self_or_lt cur with heq | hlt
      · simp [heq]
      · have hne : ¬(dirname cur = cur) := by
          intro h
          rw [h] at hlt
          omega
        simp only [hne, if_false]
        have h1 : walkDirsF n root (dirname cur) =
            walkDirsF ((dirname cur).length + 1) root (dirname cur) := by
          apply ih n (by omega) root (dirname cur)
          omega
        have h2 : walkDirsF cur.length root (dirname cur) =
            walkDirsF ((dirname cur).length + 1) root (dirname cur) := by
          apply ih cur.length (by omega) root (dirname cur)
          omega
        rw [h1, h2]

/-- The walk satisfies the loop equation of the while loop in
find_applicable_rules: visit while the prefix test holds, stop at a
dirname fixed point. -/
theorem walkDirs_eq (root cur : String) : walkDirs root cur =
    if strStartsWith cur root then
      (if dirname cur = cur then [cur] else cur :: walkDirs root (dirname cur))
    else [] := by
  unfold walkDirs
  conv_lhs => rw [walkDirsF]
  rcases dirname_self_or_lt cur with heq | hlt
  · simp [heq]
  · have hne : ¬(dirname cur = cur) := by
      intro h
      rw [h] at hlt
      omega
    simp only [hne, if_false]
    rw [walkDirsF_sufficient cur.length root (dirname cur) hlt]

lemma walkDirs_mem_starts {root cur d : String} (h : d ∈ walkDirs root cur) :
    strStartsWith d root = true :=
  walkDirsF_mem_starts _ root cur d h

lemma walkDirs_mem_pre {root cur d : String} (h : d ∈ walkDirs root cur) :
    isPre d.data cur.data = true :=
  walkDirsF_mem_pre _ root cur d h

lemma walk_under {root s d : String} (hin : isPre (root.data ++ ['/']) s.data = true)
    (hd : d ∈ walkDirs root (dirname s)) : isDescendantOrSelf d root = true := by
  have h1 : isPre root.data d.data = true := walkDirs_mem_starts hd
  have h2 : isPre d.data s.data = true :=
    isPre_trans (walkDirs_mem_pre hd) (dirname_pre s)
  rcases Nat.lt_or_ge root.data.length d.data.length with hlt | hge
  · have h5 : isPre (root.data ++ ['/']) d.data = true := by
      apply isPre_right_of_le hin h2
      simp only [List.length_append, List.length_cons, List.length_nil]
      omega
    by_cases hsl : strEndsWith root "/" = true
    · simp [isDescendantOrSelf, hsl, h1]
    · simp only [Bool.not_eq_true] at hsl
      simp [isDescendantOrSelf, hsl, h5]
  · have hlen := isPre_length h1
    have heq : root.data = d.data := isPre_eq_of_length h1 (by omega)
    have hdr : d = root := by
      apply String.ext
      exact heq.symm
    simp [isDescendantOrSelf, hdr]

/-! ## Theorems for claim C4 -/

/-- Claim C4 counterexample: for repository root /r and target file
/rats/app.py, the discovery walk visits /rats, which is not a descendant
of (or equal to) the resolved repository root /r; the stated claim that
the walk visits only descendants of the root is therefore false. -/
theorem claim4_counterexample :
    discoveryWalk "/" "/r" (some "/rats/app.py") = ["/rats"] ∧
    isDescendantOrSelf "/rats" (abspath "/" "/r") = false := by
  constructor
  · decide
  · decide

/-- Claim C4 (amended): the walk visits only directories that carry the
resolved repository root as a string prefix (the loop stops as soon as the
prefix test fails), and when the absolutized target lies strictly inside
the resolved root every visited directory is in fact a descendant of (or
equal to) the root, so a walk from a file strictly inside the root never
leaves it. -/
theorem claim4_amended (cwd root fp : String) :
    (∀ d ∈ discoveryWalk cwd root (some fp), strStartsWith d (abspath cwd root) = true) ∧
    (strictlyInside (abspath cwd fp) (abspath cwd root) = true → strTruthy fp = true →
      ∀ d ∈ discoveryWalk cwd root (some fp),
        isDescendantOrSelf d (abspath cwd root) = true) := by
  constructor
  · intro d hd
    exact walkDirs_mem_starts hd
  · intro hin htr d hd
    unfold discoveryWalk startDir at hd
    rw [show optTruthy (some fp) = strTruthy fp from rfl, htr] at hd
    simp only [if_true] at hd
    exact walk_under hin hd

/-- Witness for claim C4 (amended): a concrete instantiation with the
target strictly inside the root. -/
theorem claim4_witness :
    strictlyInside (abspath "/" "/r/src/app.py") (abspath "/" "/r") = true ∧
    isDescendantOrSelf "/r/src" (abspath "/" "/r") = true := by
  constructor
  · decide
  · exact (claim4_amended "/" "/r" "/r/src/app.py").2 (by decide) (by decide)
      "/r/src" (by decide)

/-! ## The fold invariant of find_applicable_rules -/

lemma globLoop_eq (fp : String) (r : Rule) (st : DiscoverySt) (gs : List String) :
    globLoop fp r st gs =
      match anyMatch fp gs with
      | none => .error ()
      | some true => .ok { st with applicable := st.applicable ++ [r] }
      | some false => .ok st := by
  induction gs with
  | nil => rfl
  | cons g gs ih =>
    rcases h : match_file_with_glob fp g with - | b
    · simp [globLoop, anyMatch, h]
    · cases b
      · simp [globLoop, anyMatch, h, ih]
      · simp [globLoop, anyMatch, h]

lemma fsLoad_path {fs : FS} {p : String} {r : Rule} (h : fsLoad fs p = some r) :
    r.file_path = p := by
  unfold fsLoad load_rule_from_file at h
  rcases hc : fs.readFile p with - | content <;> rw [hc] at h
  · simp at h
  · dsimp only at h
    rcases hs : splitFrontmatter content with - | ⟨fmText, rest⟩ <;> rw [hs] at h
    · simp at h
    · dsimp only at h
      simp only [Option.some.injEq] at h
      subst h
      rfl

lemma processFile_char (fs : FS) (fp : Option String) (st : DiscoverySt) (q : String) :
    processFile fs fp st q =
      if q ∈ st.processed then .ok st
      else
        match ruleOutcome fp (fsLoad fs q) q with
        | .error e => .error e
        | .ok pr => .ok ⟨st.applicable ++ pr.1, st.suggested ++ pr.2, st.processed ++ [q]⟩ := by
  by_cases hm : q ∈ st.processed
  · simp [processFile, hm]
  · rcases hL : fsLoad fs q with - | rule
    · simp [processFile, ruleOutcome, hm, hL]
    · by_cases ha : rule.always_apply = true
      · simp [processFile, ruleOutcome, hm, hL, ha]
      · by_cases hg : (optTruthy fp && !rule.globs.isEmpty) = true
        · rcases hM : anyMatch (fp.getD "") rule.globs with - | b
          · simp [processFile, ruleOutcome, hm, hL, ha, hg, globLoop_eq, hM]
          · cases b
            · simp [processFile, ruleOutcome, hm, hL, ha, hg, globLoop_eq, hM]
            · simp [processFile, ruleOutcome, hm, hL, ha, hg, globLoop_eq, hM]
        · by_cases hd : optTruthy rule.description = true
          · simp [processFile, ruleOutcome, hm, hL, ha, hg, hd]
          · simp [processFile, ruleOutcome, hm, hL, ha, hg, hd]

lemma ruleOutcome_shape {fs : FS} {fp : Option String} {q : String}
    {pr : List Rule × List (String × String)}
    (h : ruleOutcome fp (fsLoad fs q) q = .ok pr) :
    (∀ r ∈ pr.1, r.file_path = q) ∧ (∀ e ∈ pr.2, e.2 = q) ∧ (pr.1 = [] ∨ pr.2 = []) := by
  unfold ruleOutcome at h
  rcases hL : fsLoad fs q with - | rule <;> rw [hL] at h <;> dsimp only at h
  · injection h with h'
    subst h'
    simp
  · have hfp := fsLoad_path hL
    by_cases ha : rule.always_apply = true
    · rw [if_pos ha] at h
      injection h with h'
      subst h'
      simp [hfp]
    · rw [if_neg ha] at h
      by_cases hg : (optTruthy fp && !rule.globs.isEmpty) = true
      · rw [if_pos hg] at h
        rcases hM : anyMatch (fp.getD "") rule.globs with - | b <;> rw [hM] at h
        · simp at h
        · cases b
          · injection h with h'
            subst h'
            simp
          · injection h with h'
            subst h'
            simp [hfp]
      · rw [if_neg hg] at h
        by_cases hd : optTruthy rule.description = true
        · rw [if_pos hd] at h
          injection h with h'
          subst h'
          simp
        · rw [if_neg hd] at h
          injection h with h'
          subst h'
          simp

lemma inv_init (fs : FS) (fp : Option String) : Inv fs fp ⟨[], [], []⟩ := by
  refine ⟨List.nodup_nil, fun p => ⟨fun _ => ⟨rfl, rfl⟩, fun hp => absurd hp (by simp)⟩⟩

lemma inv_step {fs : FS} {fp : Option String} {st st' : DiscoverySt} {q : String}
    (h : processFile fs fp st q = .ok st') (hI : Inv fs fp st) : Inv fs fp st' := by
  rw [processFile_char] at h
  by_cases hm : q ∈ st.processed
  · rw [if_pos hm] at h
    injection h with h'
    subst h'
    exact hI
  · rw [if_neg hm] at h
    rcases hO : ruleOutcome fp (fsLoad fs q) q with e | pr <;> rw [hO] at h
    · simp at h
    · injection h with h'
      subst h'
      obtain ⟨hfir, hsec, hdisj⟩ := ruleOutcome_shape hO
      obtain ⟨hnd, hptw⟩ := hI
      constructor
      · rw [List.nodup_append]
        refine ⟨hnd, List.nodup_singleton q, ?_⟩
        intro a ha hb
        simp only [List.mem_singleton] at hb
        subst hb
        exact hm ha
      · intro p
        constructor
        · intro hp
          have hp1 : p ∉ st.processed := fun hc => hp (by simp [hc])
          have hp2 : ¬(p = q) := fun hc => hp (by simp [hc])
          obtain ⟨hA, hS⟩ := (hptw p).1 hp1
          constructor
          · show (st.applicable ++ pr.1).filter (fun r => r.file_path == p) = []
            rw [List.filter_append]
            rw [show st.applicable.filter (fun r => r.file_path == p) = [] from hA]
            rw [List.nil_append, List.filter_eq_nil_iff]
            intro r hr
            simp only [hfir r hr, beq_iff_eq]
            exact fun hc => hp2 hc.symm
          · show (st.suggested ++ pr.2).filter (fun e => e.2 == p) = []
            rw [List.filter_append]
            rw [show st.suggested.filter (fun e => e.2 == p) = [] from hS]
            rw [List.nil_append, List.filter_eq_nil_iff]
            intro e he
            simp only [hsec e he, beq_iff_eq]
            exact fun hc => hp2 hc.symm
        · intro hp
          rcases List.mem_append.mp hp with hp | hp
          · have hpq : ¬(p = q) := fun hc => hm (hc ▸ hp)
            obtain ⟨pr0, hO0, hA0, hS0⟩ := (hptw p).2 hp
            refine ⟨pr0, hO0, ?_, ?_⟩
            · show (st.applicable ++ pr.1).filter (fun r => r.file_path == p) = pr0.1
              rw [List.filter_append,
                show st.applicable.filter (fun r => r.file_path == p) = pr0.1 from hA0]
              rw [show pr.1.filter (fun r => r.file_path == p) = [] from ?_,
                List.append_nil]
              rw [List.filter_eq_nil_iff]
              intro r hr
              simp only [hfir r hr, beq_iff_eq]
              exact fun hc => hpq hc.symm
            · show (st.suggested ++ pr.2).filter (fun e => e.2 == p) = pr0.2
              rw [List.filter_append,
                show st.suggested.filter (fun e => e.2 == p) = pr0.2 from hS0]
              rw [show pr.2.filter (fun e => e.2 == p) = [] from ?_,
                List.append_nil]
              rw [List.filter_eq_nil_iff]
              intro e he
              simp only [hsec e he, beq_iff_eq]
              exact fun hc => hpq hc.symm
          · simp only [List.mem_singleton] at hp
            subst hp
            obtain ⟨hA, hS⟩ := (hptw p).1 hm
            refine ⟨pr, hO, ?_, ?_⟩
            · show (st.applicable ++ pr.1).filter (fun r => r.file_path == p) = pr.1
              rw [List.filter_append,
                show st.applicable.filter (fun r => r.file_path == p) = [] from hA,
                List.nil_append, List.filter_eq_self]
              intro r hr
              simp [hfir r hr]
            · show (st.suggested ++ pr.2).filter (fun e => e.2 == p) = pr.2
              rw [List.filter_append,
                show st.suggested.filter (fun e => e.2 == p) = [] from hS,
                List.nil_append, List.filter_eq_self]
              intro e he
              simp [hsec e he]

lemma inv_fold {fs : FS} {fp : Option String} : ∀ (ps : List String) (st st' : DiscoverySt),
    Inv fs fp st → ps.foldlM (processFile fs fp) st = .ok st' → Inv fs fp st' := by
  intro ps
  induction ps with
  | nil =>
    intro st st' hI h
    rw [List.foldlM_nil] at h
    injection h with h'
    subst h'
    exact hI
  | cons q ps ih =>
    intro st st' hI h
    rw [List.foldlM_cons] at h
    rcases hq : processFile fs fp st q with e | st1 <;> rw [hq] at h
    · simp [Bind.bind, Except.bind] at h
    · exact ih st1 st' (inv_step hq hI) h

lemma find_inv {fs : FS} {cwd root : String} {fp : Option String} {st : DiscoverySt}
    (h : find_applicable_rules fs cwd root fp = .ok st) : Inv fs fp st :=
  inv_fold _ _ _ (inv_init fs fp) h

/-! ## Lemmas about splitFirstL and substring membership -/

lemma splitFirstL_parts : ∀ (sep l pre post : List Char),
    splitFirstL sep l = some (pre, post) → l = pre ++ sep ++ post := by
  intro sep l
  induction l with
  | nil =>
    intro pre post h
    unfold splitFirstL at h
    by_cases hs : sep == ([] : List Char)
    · rw [if_pos hs] at h
      injection h with h'
      simp only [Prod.mk.injEq] at h'
      obtain ⟨h1, h2⟩ := h'
      subst h1
      subst h2
      simp only [beq_iff_eq] at hs
      simp [hs]
    · rw [if_neg hs] at h
      simp at h
  | cons c cs ih =>
    intro pre post h
    unfold splitFirstL at h
    by_cases hp : isPre sep (c :: cs) = true
    · rw [if_pos hp] at h
      injection h with h'
      simp only [Prod.mk.injEq] at h'
      obtain ⟨h1, h2⟩ := h'
      subst h1
      rw [isPre_iff] at hp
      obtain ⟨t, ht⟩ := hp
      rw [← h2, ht, List.nil_append, List.drop_left]
    · rw [if_neg hp] at h
      rcases hr : splitFirstL sep cs with - | ⟨pre2, post2⟩ <;> rw [hr] at h
      · simp at h
      · dsimp only at h
        injection h with h'
        simp only [Prod.mk.injEq] at h'
        obtain ⟨h1, h2⟩ := h'
        subst h1
        subst h2
        rw [ih pre2 post2 hr]
        simp

lemma isInf_of_isPre {n h : List Char} (hp : isPre n h = true) : isInf n h = true := by
  cases h with
  | nil => exact hp
  | cons c cs =>
    show (isPre n (c :: cs) || isInf n cs) = true
    simp [hp]

lemma isInf_cons {n t : List Char} (c : Char) (h : isInf n t = true) :
    isInf n (c :: t) = true := by
  show (isPre n (c :: t) || isInf n t) = true
  simp [h]

lemma isInf_of_parts : ∀ (u n v h : List Char), h = u ++ n ++ v → isInf n h = true := by
  intro u
  induction u with
  | nil =>
    intro n v h hh
    simp only [List.nil_append] at hh
    subst hh
    exact isInf_of_isPre ((isPre_iff _ _).mpr ⟨v, rfl⟩)
  | cons c u2 ih =>
    intro n v h hh
    subst hh
    show isInf n (c :: (u2 ++ n ++ v)) = true
    exact isInf_cons c (ih n v _ rfl)

/-! ## Theorems for claims C2, C3, C10 (the glob matcher) -/

/-- Claim C2 counterexample: the non-empty pattern src/**.js contains a
slash and a double star but no /**/ separator, so the two-variable
unpacking of split("/**/") raises ValueError instead of returning a
boolean; the claim that matching never raises is therefore false. -/
theorem claim2_counterexample :
    ¬("src/**.js" = "") ∧ match_file_with_glob "x" "src/**.js" = none := by
  exact ⟨by decide, by decide⟩

/-- Claim C2 (amended): match_file_with_glob returns a plain boolean for
every non-empty pattern that starts with star-dot, equals one of the two
hardcoded double-star patterns, does not contain both a slash and a
double star, or splits into exactly two parts at the /**/ separator; a
pattern outside all of these cases reaches the two-variable unpacking of
split("/**/") with a part count other than two and raises ValueError. -/
theorem claim2_amended (fp pat : String) (_hne : ¬(pat = "")) :
    ((strStartsWith pat "*." = true ∨ pat = "**/*.js" ∨ pat = "**/*.jsx" ∨
        ¬(pyIn "/" pat = true ∧ pyIn "**" pat = true) ∨
        (∃ d f, splitExact2 "/**/" pat = some (d, f))) →
      ∃ b, match_file_with_glob fp pat = some b) ∧
    (¬(strStartsWith pat "*." = true) → ¬(pat = "**/*.js") → ¬(pat = "**/*.jsx") →
      pyIn "/" pat = true → pyIn "**" pat = true → splitExact2 "/**/" pat = none →
      match_file_with_glob fp pat = none) := by
  constructor
  · intro hok
    unfold match_file_with_glob
    by_cases h1 : strStartsWith pat "*." = true
    · rw [if_pos h1]
      exact ⟨_, rfl⟩
    · rw [if_neg h1]
      by_cases h2 : (pat == "**/*.js" || pat == "**/*.jsx") = true
      · rw [if_pos h2]
        exact ⟨_, rfl⟩
      · rw [if_neg h2]
        by_cases h3 : (pyIn "/" pat && pyIn "**" pat) = true
        · rw [if_pos h3]
          have hsp : ∃ d f, splitExact2 "/**/" pat = some (d, f) := by
            rcases hok with hok | hok | hok | hok | hok
            · exact absurd hok h1
            · exact absurd (show (pat == "**/*.js" || pat == "**/*.jsx") = true from by
                rw [hok]; decide) h2
            · exact absurd (show (pat == "**/*.js" || pat == "**/*.jsx") = true from by
                rw [hok]; decide) h2
            · rw [Bool.and_eq_true] at h3
              exact absurd h3 hok
            · exact hok
          obtain ⟨d, f, hsp⟩ := hsp
          rw [hsp]
          dsimp only
          by_cases h4 : strStartsWith f "*" = true
          · rw [if_pos h4]
            by_cases h5 : (!(strEndsWith (pathName fp) ⟨f.data.drop 1⟩)) = true
            · rw [if_pos h5]
              exact ⟨_, rfl⟩
            · rw [if_neg h5]
              exact ⟨_, rfl⟩
          · rw [if_neg h4]
            exact ⟨_, rfl⟩
        · rw [if_neg h3]
          exact ⟨_, rfl⟩
  · intro h1 h2 h3 h4 h5 hsp
    unfold match_file_with_glob
    rw [if_neg h1]
    rw [if_neg (show ¬((pat == "**/*.js" || pat == "**/*.jsx") = true) from by
      simp [h2, h3])]
    rw [if_pos (show (pyIn "/" pat && pyIn "**" pat) = true from by rw [h4, h5]; rfl)]
    rw [hsp]

/-- Witness for claim C2 (amended): the pattern *.js is matched without an
exception, and the pattern src/**.js reaches the raising branch. -/
theorem claim2_witness :
    (∃ b, match_file_with_glob "a.js" "*.js" = some b) ∧
    match_file_with_glob "x" "src/**.js" = none :=
  ⟨(claim2_amended "a.js" "*.js" (by decide)).1 (Or.inl (by decide)),
   (claim2_amended "x" "src/**.js" (by decide)).2 (by decide) (by decide) (by decide)
     (by decide) (by decide) (by decide)⟩

/-- Claim C3 counterexample: for the extension py, the file a.py has base
name ending in .py, yet matching the pattern built as double star slash
star dot extension raises (none) instead of succeeding; the claim that
this pattern form is handled for any extension is therefore false. -/
theorem claim3_counterexample :
    strEndsWith (pathName "a.py") ("." ++ "py") = true ∧
    match_file_with_glob "a.py" ("**/*." ++ "py") = none := by
  exact ⟨by decide, by decide⟩

/-- Claim C3 (amended): the double-star single-extension pattern form is
handled only for the two hardcoded extensions js and jsx, for which the
match succeeds exactly when the base name ends in the dotted extension;
every other extension falls into the raising split branch. -/
theorem claim3_amended (fp ext : String) (h : ext = "js" ∨ ext = "jsx") :
    match_file_with_glob fp ("**/*." ++ ext) =
      some (strEndsWith (pathName fp) ("." ++ ext)) := by
  rcases h with h | h <;> subst h
  · rfl
  · rfl

/-- Witness for claim C3 (amended): concrete instantiation at ext js. -/
theorem claim3_witness :
    ("js" = "js" ∨ "js" = "jsx") ∧
    match_file_with_glob "a.js" ("**/*." ++ "js") = some true := by
  refine ⟨Or.inl rfl, ?_⟩
  rw [claim3_amended "a.js" "js" (Or.inl rfl)]
  decide

/-- Claim C10: for a pattern that reaches the directory-prefix branch
(not a bare extension pattern, not one of the two hardcoded patterns,
splitting at /**/ into a directory part and a file part that does not
start with a star), the match result is exactly the substring test of the
directory part against the normalized full path, and the file part is
never compared. -/
theorem claim10_holds (fp pat d f : String)
    (h1 : ¬(strStartsWith pat "*." = true))
    (h2 : ¬(pat = "**/*.js")) (h3 : ¬(pat = "**/*.jsx"))
    (hsp : splitExact2 "/**/" pat = some (d, f))
    (h4 : ¬(strStartsWith f "*" = true)) :
    match_file_with_glob fp pat = some (pyIn d (pathStr fp)) := by
  have hparts : ∃ pre post : List Char,
      pat.data = pre ++ "/**/".data ++ post := by
    unfold splitExact2 at hsp
    rcases hf : splitFirstL "/**/".data pat.data with - | ⟨pre, post⟩ <;> rw [hf] at hsp
    · simp at hsp
    · exact ⟨pre, post, splitFirstL_parts _ _ _ _ hf⟩
  obtain ⟨pre, post, hparts⟩ := hparts
  have h5 : pyIn "/" pat = true := by
    apply isInf_of_parts pre ['/'] (['*', '*', '/'] ++ post)
    rw [hparts]
    show pre ++ ['/', '*', '*', '/'] ++ post = pre ++ ['/'] ++ (['*', '*', '/'] ++ post)
    simp
  have h6 : pyIn "**" pat = true := by
    apply isInf_of_parts (pre ++ ['/']) ['*', '*'] (['/'] ++ post)
    rw [hparts]
    show pre ++ ['/', '*', '*', '/'] ++ post = pre ++ ['/'] ++ ['*', '*'] ++ (['/'] ++ post)
    simp
  unfold match_file_with_glob
  rw [if_neg h1]
  rw [if_neg (show ¬((pat == "**/*.js" || pat == "**/*.jsx") = true) from by
    simp [h2, h3])]
  rw [if_pos (show (pyIn "/" pat && pyIn "**" pat) = true from by rw [h5, h6]; rfl)]
  rw [hsp]
  dsimp only
  rw [if_neg h4]

/-- Witness for claim C10: the pattern src/**/index.js matches the path
/r/src/index.js through the substring test alone. -/
theorem claim10_witness :
    match_file_with_glob "/r/src/index.js" "src/**/index.js" = some true := by
  rw [claim10_holds "/r/src/index.js" "src/**/index.js" "src" "index.js"
    (by decide) (by decide) (by decide) (by decide) (by decide)]
  decide

/-! ## Theorems for claims C1, C5, C6, C7 (the discovery engine) -/

/-- Claim C1 counterexample: a discovery call with a supplied target whose
rule is loaded, not always-applied, has a non-empty glob list none of
whose patterns matches and a present description, ends with that rule in
neither result list: its (description, path) pair is not appended to
suggestedRules, so the claim is false. -/
theorem claim1_counterexample :
    find_applicable_rules fs1 "/" "/r" (some "/r/src/app.py") =
      .ok ⟨[], [], ["/r/.cursor/rules/x.mdc"]⟩ ∧
    fsLoad fs1 "/r/.cursor/rules/x.mdc" = some ruleA ∧
    ruleA.always_apply = false ∧
    ¬(ruleA.globs = []) ∧
    anyMatch "/r/src/app.py" ruleA.globs = some false ∧
    optTruthy ruleA.description = true ∧
    ¬(("d", "/r/.cursor/rules/x.mdc") ∈
      (⟨[], [], ["/r/.cursor/rules/x.mdc"]⟩ : DiscoverySt).suggested) := by
  exact ⟨rfl, rfl, rfl, by decide, rfl, rfl, by decide⟩

/-- Claim C1 (amended): when a target file is supplied and a loaded rule
has alwaysApply false and a non-empty glob list none of whose patterns
matches the target, the rule is dropped from both result lists (its
description notwithstanding): the elif chain never reaches the suggestion
branch once the glob branch is taken. -/
theorem claim1_amended (fs : FS) (cwd root : String) (fp : Option String)
    (st : DiscoverySt) (p : String) (r : Rule)
    (h : find_applicable_rules fs cwd root fp = .ok st)
    (hp : p ∈ st.processed) (hl : fsLoad fs p = some r)
    (ha : r.always_apply = false) (ht : optTruthy fp = true)
    (hg : ¬(r.globs = []))
    (hm : anyMatch (fp.getD "") r.globs = some false) :
    (∀ e ∈ st.suggested, ¬(e.2 = p)) ∧ (∀ r2 ∈ st.applicable, ¬(r2.file_path = p)) := by
  obtain ⟨-, hptw⟩ := find_inv h
  obtain ⟨pr, hO, hA, hS⟩ := (hptw p).2 hp
  rw [hl] at hO
  unfold ruleOutcome at hO
  dsimp only at hO
  rw [if_neg (by simp [ha])] at hO
  rw [if_pos (by simp [ht, hg])] at hO
  rw [hm] at hO
  dsimp only at hO
  injection hO with h'
  subst h'
  constructor
  · intro e he hep
    have hmem : e ∈ suggFor st p := List.mem_filter.mpr ⟨he, by simp [hep]⟩
    rw [hS] at hmem
    simp at hmem
  · intro r2 hr2 hrp
    have hmem : r2 ∈ applFor st p := List.mem_filter.mpr ⟨hr2, by simp [hrp]⟩
    rw [hA] at hmem
    simp at hmem

/-- Witness for claim C1 (amended): the fs1 scenario instantiated. -/
theorem claim1_witness :
    (∀ e ∈ (⟨[], [], ["/r/.cursor/rules/x.mdc"]⟩ : DiscoverySt).suggested,
      ¬(e.2 = "/r/.cursor/rules/x.mdc")) ∧
    (∀ r2 ∈ (⟨[], [], ["/r/.cursor/rules/x.mdc"]⟩ : DiscoverySt).applicable,
      ¬(r2.file_path = "/r/.cursor/rules/x.mdc")) :=
  claim1_amended fs1 "/" "/r" (some "/r/src/app.py")
    ⟨[], [], ["/r/.cursor/rules/x.mdc"]⟩ "/r/.cursor/rules/x.mdc" ruleA
    rfl (by decide) rfl rfl rfl (by decide) rfl

/-- Claim C5: in every completed discovery call the processed-file list
has no duplicates (each document is loaded at most once), and no document
path appears in both result lists. -/
theorem claim5_holds (fs : FS) (cwd root : String) (fp : Option String)
    (st : DiscoverySt) (h : find_applicable_rules fs cwd root fp = .ok st) :
    st.processed.Nodup ∧
    ∀ p : String, ¬((∃ r ∈ st.applicable, r.file_path = p) ∧
      (∃ e ∈ st.suggested, e.2 = p)) := by
  obtain ⟨hnd, hptw⟩ := find_inv h
  refine ⟨hnd, ?_⟩
  rintro p ⟨⟨r, hr, hrp⟩, ⟨e, he, hep⟩⟩
  have hrf : r ∈ applFor st p := List.mem_filter.mpr ⟨hr, by simp [hrp]⟩
  have hef : e ∈ suggFor st p := List.mem_filter.mpr ⟨he, by simp [hep]⟩
  by_cases hp : p ∈ st.processed
  · obtain ⟨pr, hO, hA, hS⟩ := (hptw p).2 hp
    obtain ⟨-, -, hdisj⟩ := ruleOutcome_shape hO
    rcases hdisj with h0 | h0
    · rw [hA, h0] at hrf
      simp at hrf
    · rw [hS, h0] at hef
      simp at hef
  · obtain ⟨hA, hS⟩ := (hptw p).1 hp
    rw [hA] at hrf
    simp at hrf

/-- Witness for claim C5: the fs1 scenario instantiated. -/
theorem claim5_witness :
    (⟨[], [], ["/r/.cursor/rules/x.mdc"]⟩ : DiscoverySt).processed.Nodup ∧
    ¬((∃ r ∈ (⟨[], [], ["/r/.cursor/rules/x.mdc"]⟩ : DiscoverySt).applicable,
        r.file_path = "/r/.cursor/rules/x.mdc") ∧
      (∃ e ∈ (⟨[], [], ["/r/.cursor/rules/x.mdc"]⟩ : DiscoverySt).suggested,
        e.2 = "/r/.cursor/rules/x.mdc")) :=
  ⟨(claim5_holds fs1 "/" "/r" (some "/r/src/app.py")
      ⟨[], [], ["/r/.cursor/rules/x.mdc"]⟩ rfl).1,
   (claim5_holds fs1 "/" "/r" (some "/r/src/app.py")
      ⟨[], [], ["/r/.cursor/rules/x.mdc"]⟩ rfl).2 "/r/.cursor/rules/x.mdc"⟩

/-- Claim C6: every successfully loaded rule whose alwaysApply field is
true is appended to applicableRules in every completed discovery call that
processes it, whatever the target file argument is. -/
theorem claim6_holds (fs : FS) (cwd root : String) (fp : Option String)
    (st : DiscoverySt) (p : String) (r : Rule)
    (h : find_applicable_rules fs cwd root fp = .ok st)
    (hp : p ∈ st.processed) (hl : fsLoad fs p = some r)
    (ha : r.always_apply = true) : r ∈ st.applicable := by
  obtain ⟨-, hptw⟩ := find_inv h
  obtain ⟨pr, hO, hA, -⟩ := (hptw p).2 hp
  rw [hl] at hO
  unfold ruleOutcome at hO
  dsimp only at hO
  rw [if_pos ha] at hO
  injection hO with h'
  subst h'
  have hmem : r ∈ applFor st p := by
    rw [hA]
    exact List.mem_singleton_self r
  exact List.mem_of_mem_filter hmem

/-- Witness for claim C6: the always-applied rule of fs2 lands in the
applicable list of a call with no target file. -/
theorem claim6_witness :
    find_applicable_rules fs2 "/" "/r" none =
      .ok ⟨[ruleB], [], ["/r/.cursor/rules/y.mdc"]⟩ ∧
    ruleB ∈ (⟨[ruleB], [], ["/r/.cursor/rules/y.mdc"]⟩ : DiscoverySt).applicable :=
  ⟨rfl, claim6_holds fs2 "/" "/r" none ⟨[ruleB], [], ["/r/.cursor/rules/y.mdc"]⟩
    "/r/.cursor/rules/y.mdc" ruleB rfl (by decide) rfl rfl⟩

/-- Claim C7: in a completed discovery call with no target file, a loaded
rule with alwaysApply false and a non-empty glob list is appended to
suggestedRules exactly when its description is truthy, and leaves no trace
in either list otherwise. -/
theorem claim7_holds (fs : FS) (cwd root : String) (st : DiscoverySt)
    (p : String) (r : Rule)
    (h : find_applicable_rules fs cwd root none = .ok st)
    (hp : p ∈ st.processed) (hl : fsLoad fs p = some r)
    (ha : r.always_apply = false) (_hg : ¬(r.globs = [])) :
    (optTruthy r.description = true →
      (r.description.getD "", p) ∈ st.suggested) ∧
    (optTruthy r.description = false →
      (∀ e ∈ st.suggested, ¬(e.2 = p)) ∧ (∀ r2 ∈ st.applicable, ¬(r2.file_path = p))) := by
  obtain ⟨-, hptw⟩ := find_inv h
  obtain ⟨pr, hO, hA, hS⟩ := (hptw p).2 hp
  rw [hl] at hO
  unfold ruleOutcome at hO
  dsimp only at hO
  rw [if_neg (by simp [ha])] at hO
  rw [if_neg (by simp [optTruthy])] at hO
  constructor
  · intro hd
    rw [if_pos hd] at hO
    injection hO with h'
    subst h'
    have hmem : (r.description.getD "", p) ∈ suggFor st p := by
      rw [hS]
      exact List.mem_singleton_self _
    exact List.mem_of_mem_filter hmem
  · intro hd
    rw [if_neg (by simp [hd])] at hO
    injection hO with h'
    subst h'
    constructor
    · intro e he hep
      have hmem : e ∈ suggFor st p := List.mem_filter.mpr ⟨he, by simp [hep]⟩
      rw [hS] at hmem
      simp at hmem
    · intro r2 hr2 hrp
      have hmem : r2 ∈ applFor st p := List.mem_filter.mpr ⟨hr2, by simp [hrp]⟩
      rw [hA] at hmem
      simp at hmem

/-- Witness for claim C7: with no target supplied, the described rule of
fs1 becomes a suggestion. -/
theorem claim7_witness :
    find_applicable_rules fs1 "/" "/r" none =
      .ok ⟨[], [("d", "/r/.cursor/rules/x.mdc")], ["/r/.cursor/rules/x.mdc"]⟩ ∧
    ("d", "/r/.cursor/rules/x.mdc") ∈
      (⟨[], [("d", "/r/.cursor/rules/x.mdc")], ["/r/.cursor/rules/x.mdc"]⟩ :
        DiscoverySt).suggested :=
  ⟨rfl, (claim7_holds fs1 "/" "/r"
      ⟨[], [("d", "/r/.cursor/rules/x.mdc")], ["/r/.cursor/rules/x.mdc"]⟩
      "/r/.cursor/rules/x.mdc" ruleA rfl (by decide) rfl rfl (by decide)).1 rfl⟩

/-! ## Theorems for claims C8 and C9 (the renderer) -/

/-- Claim C8: getApplicableRulesContent never raises (it is a total
function whose try/except converts every internal failure into the empty
string): when discovery raises internally the result is the empty string,
and when discovery completes with two empty lists the result is the empty
string as well. -/
theorem claim8_holds (fs : FS) (cwd root : String) (fp : Option String) :
    (find_applicable_rules fs cwd root fp = .error () →
      get_applicable_rules_content fs cwd root fp = "") ∧
    (∀ st : DiscoverySt, find_applicable_rules fs cwd root fp = .ok st →
      st.applicable = [] → st.suggested = [] →
      get_applicable_rules_content fs cwd root fp = "") := by
  constructor
  · intro h
    unfold get_applicable_rules_content
    rw [h]
    rfl
  · intro st h hA hS
    unfold get_applicable_rules_content
    rw [h]
    show (match (if !st.applicable.isEmpty || !st.suggested.isEmpty then
        (do
          let r1 ← st.applicable.foldlM (fun acc r => do
            let rp ← relpath cwd r.file_path root
            pure (acc ++ "\n\n// Rule from " ++ rp ++ ":\n" ++ r.payload))
            "\n\n// .cursor/rules results:"
          let r2 ← st.suggested.foldlM (fun acc e => do
            let rp ← relpath cwd e.2 root
            pure (acc ++ "\n\n// If " ++ e.1 ++ " applies, load " ++ rp)) r1
          pure r2)
      else pure "" : Except Unit String) with
      | .ok s => s
      | .error _ => "") = ""
    rw [hA, hS]
    rfl

/-- Witness for claim C8: a filesystem without rule folders yields the
empty string. -/
theorem claim8_witness :
    find_applicable_rules fsEmpty "/" "/r" none = .ok ⟨[], [], []⟩ ∧
    get_applicable_rules_content fsEmpty "/" "/r" none = "" :=
  ⟨rfl, (claim8_holds fsEmpty "/" "/r" none).2 ⟨[], [], []⟩ rfl rfl rfl⟩

/-- Claim C9 (round trip): the document with header description foo,
globs *.py, *.md, alwaysApply false and body Hello, loaded from the
conventional rules folder of repository /r and rendered for the target
file a.py, produces exactly the rules banner followed by the rule block,
which contains the literal body Hello and the path of the document
relativized to the repository root. -/
theorem claim9_holds :
    get_applicable_rules_content fs9 "/r" "/r" (some "a.py") =
      "\n\n// .cursor/rules results:\n\n// Rule from .cursor/rules/x.mdc:\nHello" ∧
    pyIn "Hello" (get_applicable_rules_content fs9 "/r" "/r" (some "a.py")) = true ∧
    pyIn ".cursor/rules/x.mdc"
      (get_applicable_rules_content fs9 "/r" "/r" (some "a.py")) = true := by
  refine ⟨rfl, by decide, by decide⟩

end Codemcp
